import Mathlib

set_option maxRecDepth 8192

/-! Shallow embedding of the diff-to-comment mapping and validation pipeline
of `scripts/ai-code-reviewer.py`: the diff parser `parse_diff_for_review`
and the suggestion-validation logic of `review_file_inline`.  Python string
primitives (`str.startswith`, slicing, `str.strip`, `re` patterns used by the
script, `json.loads`) are modelled as executable Lean functions over the
character lists of the strings involved. -/

/-- Model of Python `str.startswith(p)`. -/
def pyStartsWith (s p : String) : Bool := p.toList.isPrefixOf s.toList

/-- Model of Python `str.endswith(p)` for a single pattern. -/
def pyEndsWith (s p : String) : Bool := p.toList.isSuffixOf s.toList

/-- Whitespace characters removed by Python `str.strip()` (ASCII part). -/
def pyWsChar (c : Char) : Bool :=
  c == ' ' || c == '\t' || c == '\n' || c == '\r' || c == '\x0b' || c == '\x0c'

/-- Strip leading and trailing whitespace from a character list. -/
def pyStripL (cs : List Char) : List Char :=
  ((cs.dropWhile pyWsChar).reverse.dropWhile pyWsChar).reverse

/-- Model of Python `str.strip()`: remove leading and trailing whitespace. -/
def pyStrip (s : String) : String := ⟨pyStripL s.toList⟩

/-- Split a character list at every newline, keeping empty pieces, as Python
`str.split('\n')` does. -/
def splitNl : List Char → List (List Char)
  | [] => [[]]
  | c :: rest =>
    if c = '\n' then [] :: splitNl rest
    else
      match splitNl rest with
      | [] => [[c]]
      | p :: ps => (c :: p) :: ps

/-- Model of Python `patch.split('\n')`. -/
def pySplitLines (s : String) : List String := (splitNl s.toList).map (fun l => ⟨l⟩)

/-- Model of Python slicing `line[1:]`. -/
def pyDropOne (s : String) : String := ⟨s.toList.drop 1⟩

/-- Kind of a surfaced diff line: the script's `'added'` / `'context'` tags. -/
inductive LineType where
  | added
  | context
deriving DecidableEq, Repr

/-- One record of the `context_lines` list built by `parse_diff_for_review`:
`{'line_number': ..., 'content': ..., 'type': ...}`. -/
structure DiffLine where
  line_number : Int
  content : String
  type : LineType
deriving DecidableEq, Repr

/-- The mutable state threaded through `parse_diff_for_review`'s loop. -/
structure ParseState where
  context_lines : List DiffLine
  valid_comment_lines : Finset Int
  new_line_number : Int

/-- Numeric value of a digit run, as built by Python `int()`. -/
def digitsVal (ds : List Char) : Nat :=
  ds.foldl (fun a c => a * 10 + (c.toNat - 48)) 0

/-- Match of the tail regex fragment `" \+(\d+)(,\d+)? @@"` at the start of
`cs`, returning the first captured group.  `(\d+)` is greedy, the optional
`(,\d+)?` group is tried first and skipped if a literal `" @@"` does not
follow it. -/
def hunkTailNum : List Char → Option Nat
  | ' ' :: '+' :: rest =>
    let ds := rest.takeWhile Char.isDigit
    if ds.isEmpty then none
    else
      match rest.dropWhile Char.isDigit with
      | ',' :: r2 =>
        let ds2 := r2.takeWhile Char.isDigit
        if ds2.isEmpty then none
        else
          match r2.dropWhile Char.isDigit with
          | ' ' :: '@' :: '@' :: _ => some (digitsVal ds)
          | _ => none
      | ' ' :: '@' :: '@' :: _ => some (digitsVal ds)
      | _ => none
  | _ => none

/-- Search for the tail fragment at every position of `cs`, preferring the
rightmost occurrence: this models the greedy `.*` of the script's pattern
`@@ .* \+(\d+)(,\d+)? @@`, which backtracks from the right. -/
def hunkTailSearch : List Char → Option Nat
  | [] => none
  | c :: rest => (hunkTailSearch rest).orElse (fun _ => hunkTailNum (c :: rest))

/-- Model of `re.search(r'@@ .* \+(\d+)(,\d+)? @@', line)`: the match start
is the leftmost position where `"@@ "` occurs and the tail fragment matches
somewhere to its right; the captured group comes from the rightmost matching
tail position (greedy `.*`). -/
def hunkHeaderNum : List Char → Option Nat
  | [] => none
  | c :: rest =>
    (if c = '@' then
      match rest with
      | '@' :: ' ' :: r3 => hunkTailSearch r3
      | _ => none
    else none).orElse (fun _ => hunkHeaderNum rest)

/-- New-file start offset extracted from a hunk header line, if the pattern
matches; `int(match.group(1))` in the script. -/
def parse_hunk_start (line : String) : Option Int :=
  match hunkHeaderNum line.toList with
  | some n => some (n : Int)
  | none => none

/-- One iteration of the `for line in lines` loop of `parse_diff_for_review`:
hunk headers reset the destination counter (when the pattern matches), lines
prefixed `+` are emitted as added lines and recorded in the valid set, lines
prefixed with a space are emitted as context lines, everything else
(including removed lines) is skipped. -/
def processLine (st : ParseState) (line : String) : ParseState :=
  if pyStartsWith line "@@" then
    match parse_hunk_start line with
    | some c => { st with new_line_number := c - 1 }
    | none => st
  else if pyStartsWith line "+" then
    { context_lines :=
        st.context_lines ++ [⟨st.new_line_number + 1, pyDropOne line, LineType.added⟩],
      valid_comment_lines := insert (st.new_line_number + 1) st.valid_comment_lines,
      new_line_number := st.new_line_number + 1 }
  else if pyStartsWith line " " then
    { st with
      context_lines :=
        st.context_lines ++ [⟨st.new_line_number + 1, pyDropOne line, LineType.context⟩],
      new_line_number := st.new_line_number + 1 }
  else st

/-- Full (untruncated) state after running `parse_diff_for_review`'s loop on
`patch.split('\n')`, starting from empty lists and counter `0`. -/
def parseState (patch : String) : ParseState :=
  (pySplitLines patch).foldl processLine ⟨[], ∅, 0⟩

/-- Model of `parse_diff_for_review`: the emitted context lines are truncated
to the first 300 records (`context_lines[:300]`), the valid-line set is
returned in full. -/
def parse_diff_for_review (patch : String) : List DiffLine × Finset Int :=
  ((parseState patch).context_lines.take 300, (parseState patch).valid_comment_lines)

/-- Values produced by `json.loads`.  Numbers are kept exactly as a decimal
mantissa and a power-of-ten exponent (value `m * 10 ^ e`); the script only
ever compares them with integers. -/
inductive JValue where
  | null
  | bool (b : Bool)
  | num (m : Int) (e : Int)
  | str (s : String)
  | arr (xs : List JValue)
  | obj (fields : List (String × JValue))

/-- JSON whitespace skipped by `json.loads` between tokens. -/
def jsonWsChar (c : Char) : Bool := c == ' ' || c == '\t' || c == '\n' || c == '\r'

/-- Hexadecimal digit value, for `\uXXXX` string escapes. -/
def hexVal (c : Char) : Option Nat :=
  if c.isDigit then some (c.toNat - 48)
  else if 'a' ≤ c ∧ c ≤ 'f' then some (c.toNat - 87)
  else if 'A' ≤ c ∧ c ≤ 'F' then some (c.toNat - 55)
  else none

/-- Single-character JSON string escapes. -/
def escCharOf : Char → Option Char
  | '"' => some '"'
  | '\\' => some '\\'
  | '/' => some '/'
  | 'b' => some '\x08'
  | 'f' => some '\x0c'
  | 'n' => some '\n'
  | 'r' => some '\r'
  | 't' => some '\t'
  | _ => none

/-- Body of a JSON string after the opening quote: returns the decoded
characters and the input remaining after the closing quote.  Raw control
characters are rejected, as by the strict `json.loads` default. -/
def parseStrChars : List Char → Option (List Char × List Char)
  | [] => none
  | '"' :: rest => some ([], rest)
  | '\\' :: 'u' :: h1 :: h2 :: h3 :: h4 :: rest =>
    match hexVal h1, hexVal h2, hexVal h3, hexVal h4 with
    | some a, some b, some c, some d =>
      (parseStrChars rest).map
        (fun p => (Char.ofNat (((a * 16 + b) * 16 + c) * 16 + d) :: p.1, p.2))
    | _, _, _, _ => none
  | '\\' :: e :: rest =>
    match escCharOf e with
    | some ec => (parseStrChars rest).map (fun p => (ec :: p.1, p.2))
    | none => none
  | c :: rest =>
    if c.toNat < 32 then none
    else (parseStrChars rest).map (fun p => (c :: p.1, p.2))

/-- JSON string body as a `String`. -/
def parseStr (cs : List Char) : Option (String × List Char) :=
  (parseStrChars cs).map (fun p => (⟨p.1⟩, p.2))

/-- Exponent part of a JSON number after the `e`/`E` marker. -/
def parseExpPart (r : List Char) : Option (Int × List Char) :=
  let q :=
    match r with
    | '+' :: r2 => (false, r2)
    | '-' :: r2 => (true, r2)
    | _ => (false, r)
  let ds := q.2.takeWhile Char.isDigit
  if ds.isEmpty then none
  else
    some ((if q.1 then -(digitsVal ds : Int) else (digitsVal ds : Int)),
      q.2.dropWhile Char.isDigit)

/-- JSON number: `-?(0|[1-9]\d*)(\.\d+)?([eE][+-]?\d+)?`, returned as
mantissa and power-of-ten exponent. -/
def parseNumber (cs : List Char) : Option ((Int × Int) × List Char) :=
  let p :=
    match cs with
    | '-' :: r => (true, r)
    | _ => (false, cs)
  let neg := p.1
  let cs1 := p.2
  let intDs := cs1.takeWhile Char.isDigit
  if intDs.isEmpty then none
  else if decide (intDs.head? = some '0') && decide (intDs.length ≠ 1) then none
  else
    let cs2 := cs1.dropWhile Char.isDigit
    let fr : Option (List Char × List Char) :=
      match cs2 with
      | '.' :: r =>
        let f := r.takeWhile Char.isDigit
        if f.isEmpty then none else some (f, r.dropWhile Char.isDigit)
      | _ => some ([], cs2)
    match fr with
    | none => none
    | some (fracDs, cs3) =>
      let ex : Option (Int × List Char) :=
        match cs3 with
        | 'e' :: r => parseExpPart r
        | 'E' :: r => parseExpPart r
        | _ => some (0, cs3)
      match ex with
      | none => none
      | some (e, cs4) =>
        let mantissa : Int := (digitsVal intDs * 10 ^ fracDs.length + digitsVal fracDs : Nat)
        some (((if neg then -mantissa else mantissa), e - (fracDs.length : Int)), cs4)

/-- Intermediate results of the recursive-descent scanner. -/
inductive PRes where
  | v (x : JValue)
  | vs (xs : List JValue)
  | kvs (ps : List (String × JValue))

/-- Scanner modes: a single value, the continuation of an array after its
first element, or the continuation of an object after its first pair. -/
inductive PMode where
  | val
  | arrCont (acc : List JValue)
  | objCont (acc : List (String × JValue))

/-- Fuel-indexed recursive-descent scanner modelling `json.loads`'s parser.
All recursive calls decrease the fuel, so the function is structurally
recursive and computes by reduction. -/
def parseP : Nat → PMode → List Char → Option (PRes × List Char)
  | 0, _, _ => none
  | Nat.succ fuel, PMode.val, cs =>
    match cs.dropWhile jsonWsChar with
    | [] => none
    | '{' :: rest =>
      (match rest.dropWhile jsonWsChar with
       | '}' :: r2 => some (PRes.v (JValue.obj []), r2)
       | '"' :: r2 =>
         (match parseStr r2 with
          | none => none
          | some (k, r3) =>
            match r3.dropWhile jsonWsChar with
            | ':' :: r4 =>
              (match parseP fuel PMode.val r4 with
               | some (PRes.v v, r5) =>
                 (match parseP fuel (PMode.objCont [(k, v)]) r5 with
                  | some (PRes.kvs ps, r6) => some (PRes.v (JValue.obj ps), r6)
                  | _ => none)
               | _ => none)
            | _ => none)
       | _ => none)
    | '[' :: rest =>
      (match rest.dropWhile jsonWsChar with
       | ']' :: r2 => some (PRes.v (JValue.arr []), r2)
       | _ =>
         match parseP fuel PMode.val rest with
         | some (PRes.v x, r2) =>
           (match parseP fuel (PMode.arrCont [x]) r2 with
            | some (PRes.vs xs, r3) => some (PRes.v (JValue.arr xs), r3)
            | _ => none)
         | _ => none)
    | '"' :: rest =>
      (match parseStr rest with
       | some (s, r2) => some (PRes.v (JValue.str s), r2)
       | none => none)
    | 't' :: rest =>
      (match rest with
       | 'r' :: 'u' :: 'e' :: r2 => some (PRes.v (JValue.bool true), r2)
       | _ => none)
    | 'f' :: rest =>
      (match rest with
       | 'a' :: 'l' :: 's' :: 'e' :: r2 => some (PRes.v (JValue.bool false), r2)
       | _ => none)
    | 'n' :: rest =>
      (match rest with
       | 'u' :: 'l' :: 'l' :: r2 => some (PRes.v JValue.null, r2)
       | _ => none)
    | c :: rest =>
      if c = '-' ∨ c.isDigit then
        match parseNumber (c :: rest) with
        | some (q, r2) => some (PRes.v (JValue.num q.1 q.2), r2)
        | none => none
      else none
  | Nat.succ fuel, PMode.arrCont acc, cs =>
    match cs.dropWhile jsonWsChar with
    | ']' :: r => some (PRes.vs acc, r)
    | ',' :: r =>
      (match parseP fuel PMode.val r with
       | some (PRes.v x, r2) => parseP fuel (PMode.arrCont (acc ++ [x])) r2
       | _ => none)
    | _ => none
  | Nat.succ fuel, PMode.objCont acc, cs =>
    match cs.dropWhile jsonWsChar with
    | '}' :: r => some (PRes.kvs acc, r)
    | ',' :: r =>
      (match r.dropWhile jsonWsChar with
       | '"' :: r2 =>
         (match parseStr r2 with
          | some (k, r3) =>
            (match r3.dropWhile jsonWsChar with
             | ':' :: r4 =>
               (match parseP fuel PMode.val r4 with
                | some (PRes.v v, r5) => parseP fuel (PMode.objCont (acc ++ [(k, v)])) r5
                | _ => none)
             | _ => none)
          | none => none)
       | _ => none)
    | _ => none

/-- Model of `json.loads`: parse one value, then require only whitespace to
remain (otherwise Python raises `Extra data`, i.e. a decode error). -/
def jsonLoads (s : String) : Option JValue :=
  let cs := s.toList
  match parseP (2 * cs.length + 4) PMode.val cs with
  | some (PRes.v v, rest) => if (rest.dropWhile jsonWsChar).isEmpty then some v else none
  | _ => none

/-- Word characters of the regex class `\w` (ASCII part). -/
def pyWordChar (c : Char) : Bool := c.isAlphanum || c == '_'

/-- Model of `re.sub(r'^```\w*\n?', '', s)`: the anchored pattern matches at
most once, at the start of the string. -/
def stripLeadingFence (s : String) : String :=
  let cs := s.toList
  if ['`', '`', '`'].isPrefixOf cs then
    match (cs.drop 3).dropWhile pyWordChar with
    | '\n' :: r2 => ⟨r2⟩
    | r => ⟨r⟩
  else s

/-- List-level form of the trailing-fence removal. -/
def stripTrailNl (cs : List Char) : List Char :=
  if ['\n', '`', '`', '`'].isSuffixOf cs then cs.take (cs.length - 4)
  else if ['`', '`', '`'].isSuffixOf cs then cs.take (cs.length - 3)
  else if ['\n', '`', '`', '`', '\n'].isSuffixOf cs then cs.take (cs.length - 5) ++ ['\n']
  else if ['`', '`', '`', '\n'].isSuffixOf cs then cs.take (cs.length - 4) ++ ['\n']
  else cs

/-- Model of `re.sub(r'\n?```$', '', s)`: `$` matches at the end of the
string or just before a final newline, and the leftmost match wins, so a
newline directly before the closing fence is consumed with it. -/
def stripTrailingFence (s : String) : String := ⟨stripTrailNl s.toList⟩

/-- The fenced-wrapper handling of `review_file_inline`: both substitutions
are applied only when the content starts with a code fence. -/
def stripFences (s : String) : String :=
  if pyStartsWith s "```" then stripTrailingFence (stripLeadingFence s) else s

/-- Substring test, as Python `needle in haystack` for strings. -/
def strHasSub (needle : List Char) : List Char → Bool
  | [] => needle.isEmpty
  | c :: rest => needle.isPrefixOf (c :: rest) || strHasSub needle rest

/-- Last-binding lookup in a parsed JSON object, matching the Python `dict`
built by `json.loads` (later duplicate keys override earlier ones). -/
def dictGet : List (String × JValue) → String → Option JValue
  | [], _ => none
  | p :: rest, k =>
    match dictGet rest k with
    | some v => some v
    | none => if p.1 == k then some p.2 else none

/-- Presence of a key in a parsed JSON object. -/
def hasKeyB (fs : List (String × JValue)) (k : String) : Bool :=
  fs.any (fun p => p.1 == k)

/-- Model of Python `key in suggestion`: key lookup for `dict`s, substring
test for strings, element equality for lists; a `TypeError` (modelled as
`Except.error`) for the remaining non-container values.  List elements are
compared with the key only as strings, which is what `==` against a `str`
can return `True` for. -/
def pyContainsKey : JValue → String → Except Unit Bool
  | JValue.obj fs, k => Except.ok (hasKeyB fs k)
  | JValue.str s, k => Except.ok (strHasSub k.toList s.toList)
  | JValue.arr xs, k =>
    Except.ok (xs.any (fun v => match v with | JValue.str s => s == k | _ => false))
  | _, _ => Except.error ()

/-- Model of `all(key in suggestion for key in ['line', 'comment'])` with
Python's short-circuit evaluation. -/
def keysCheck (s : JValue) : Except Unit Bool :=
  match pyContainsKey s "line" with
  | Except.error e => Except.error e
  | Except.ok false => Except.ok false
  | Except.ok true => pyContainsKey s "comment"

/-- Model of Python subscription `suggestion[key]`: works on `dict`s, raises
(`Except.error`) otherwise; a missing key would also raise. -/
def pyIndex : JValue → String → Except Unit JValue
  | JValue.obj fs, k =>
    (match dictGet fs k with
     | some v => Except.ok v
     | none => Except.error ())
  | _, _ => Except.error ()

/-- Model of Python `==` between a `json.loads` value and an `int`: numbers
compare by value, `True`/`False` equal `1`/`0`, everything else is unequal. -/
def pyIntEq : JValue → Int → Bool
  | JValue.num m e, n =>
    if 0 ≤ e then m * (10 : Int) ^ e.toNat == n else m == n * (10 : Int) ^ (-e).toNat
  | JValue.bool b, n => (if b then (1 : Int) else 0) == n
  | _, _ => false

/-- Model of `line_number in valid_comment_lines` for a `set` of `int`s:
unhashable values (`list`, `dict`) raise a `TypeError`. -/
def pyInSet (v : JValue) (valid : Finset Int) : Except Unit Bool :=
  match v with
  | JValue.arr _ => Except.error ()
  | JValue.obj _ => Except.error ()
  | _ => Except.ok (decide (∃ n ∈ valid, pyIntEq v n = true))

/-- The script's per-file comment cap. -/
def MAX_COMMENTS_PER_FILE : Nat := 5

/-- The filtering loop of `review_file_inline` (lines 239-255): drop
elements without both required keys, drop elements whose `line` is not in
the valid set, and stop accepting once `maxCount` elements are kept.  An
exception anywhere aborts the whole review of the file (outer
`except Exception`), so it is propagated as `Except.error`. -/
def filterSuggestions (valid : Finset Int) (maxCount : Nat) :
    List JValue → List JValue → Except Unit (List JValue)
  | acc, [] => Except.ok acc
  | acc, s :: rest =>
    match keysCheck s with
    | Except.error e => Except.error e
    | Except.ok false => filterSuggestions valid maxCount acc rest
    | Except.ok true =>
      match pyIndex s "line" with
      | Except.error e => Except.error e
      | Except.ok ln =>
        match pyInSet ln valid with
        | Except.error e => Except.error e
        | Except.ok false => filterSuggestions valid maxCount acc rest
        | Except.ok true =>
          let acc2 := acc ++ [s]
          if maxCount ≤ acc2.length then Except.ok acc2
          else filterSuggestions valid maxCount acc2 rest

/-- A validated comment as handed to `post_inline_comment`: the `line` field
of the accepted suggestion and the normalized comment text. -/
structure PendingComment where
  line : JValue
  body : String

/-- Terminal sentence punctuation test: `comment_text.endswith(('.', '!', '?'))`. -/
def endsPunct (t : String) : Bool := pyEndsWith t "." || pyEndsWith t "!" || pyEndsWith t "?"

/-- The script's normalization of an accepted comment: strip whitespace and
append a period when the stripped text is non-empty (truthy) and lacks
terminal punctuation. -/
def normalizeComment (c : String) : String :=
  let t := pyStrip c
  if (t != "") && !endsPunct t then t ++ "." else t

/-- The posting loop of `review_file_inline` (lines 260-270): each accepted
suggestion is turned into a normalized comment one at a time; a `TypeError`
or `AttributeError` (non-string `comment` value) aborts the loop, keeping
the comments already produced. -/
def postLoop : List JValue → List PendingComment
  | [] => []
  | s :: rest =>
    match pyIndex s "line" with
    | Except.error _ => []
    | Except.ok ln =>
      match pyIndex s "comment" with
      | Except.ok (JValue.str c) => ⟨ln, normalizeComment c⟩ :: postLoop rest
      | _ => []

/-- Validation of an already-parsed suggestion list: filtering followed by
the posting loop; an exception yields no comments. -/
def validateParsed (valid : Finset Int) (maxCount : Nat) (ss : List JValue) :
    List PendingComment :=
  match filterSuggestions valid maxCount [] ss with
  | Except.ok l => postLoop l
  | Except.error _ => []

/-- The Suggestion Validator: the code path of `review_file_inline` from the
model's raw output to the sequence of posted inline comments.  The raw text
is stripped (`.strip()`), an optional code fence is removed, the remainder
is parsed with `json.loads`; a parse failure or a non-list value produces no
comments (reported, not fatal). -/
def review_validate (raw : String) (valid : Finset Int) (maxCount : Nat) :
    List PendingComment :=
  match jsonLoads (stripFences (pyStrip raw)) with
  | none => []
  | some (JValue.arr ss) => validateParsed valid maxCount ss
  | some _ => []

/-- The pending comment an object element gives rise to when accepted, used
to state order-preservation results. -/
def mkPendingOf : JValue → Option PendingComment
  | JValue.obj fs =>
    (match dictGet fs "line", dictGet fs "comment" with
     | some ln, some (JValue.str c) => some ⟨ln, normalizeComment c⟩
     | _, _ => none)
  | _ => none

/-! Basic facts about the line dispatch of `processLine`. -/

lemma headOfStarts (l : String) (c : Char) (h : pyStartsWith l (String.mk [c]) = true) :
    ∃ t, l.toList = c :: t := by
  unfold pyStartsWith at h
  cases hl : l.toList with
  | nil => rw [hl] at h; simp [List.isPrefixOf] at h
  | cons b t =>
    rw [hl] at h
    have h2 : ((c == b) && List.isPrefixOf ([] : List Char) t) = true := h
    have hc : c = b := by simpa using (Bool.and_eq_true _ _ |>.mp h2).1
    exact ⟨t, by rw [hc]⟩


lemma startsNotWith (l : String) (c : Char) (t : List Char) (hl : l.toList = c :: t)
    (d : Char) (p : List Char) (hne : (d == c) = false) :
    pyStartsWith l (String.mk (d :: p)) = false := by
  unfold pyStartsWith
  rw [hl]
  show List.isPrefixOf (d :: p) (c :: t) = false
  have hp : List.isPrefixOf (d :: p) (c :: t) = ((d == c) && List.isPrefixOf p t) := rfl
  rw [hp, hne, Bool.false_and]

lemma plusNotHdr (l : String) (h : pyStartsWith l "+" = true) :
    pyStartsWith l "@@" = false := by
  obtain ⟨t, hl⟩ := headOfStarts l '+' h
  exact startsNotWith l '+' t hl '@' ['@'] (by decide)

lemma spaceNotHdr (l : String) (h : pyStartsWith l " " = true) :
    pyStartsWith l "@@" = false := by
  obtain ⟨t, hl⟩ := headOfStarts l ' ' h
  exact startsNotWith l ' ' t hl '@' ['@'] (by decide)

lemma spaceNotPlus (l : String) (h : pyStartsWith l " " = true) :
    pyStartsWith l "+" = false := by
  obtain ⟨t, hl⟩ := headOfStarts l ' ' h
  exact startsNotWith l ' ' t hl '+' [] (by decide)

lemma processLine_hdr_matched (st : ParseState) (l : String) (c : Int)
    (h1 : pyStartsWith l "@@" = true) (h2 : parse_hunk_start l = some c) :
    processLine st l = { st with new_line_number := c - 1 } := by
  simp [processLine, h1, h2]

lemma processLine_hdr_unmatched (st : ParseState) (l : String)
    (h1 : pyStartsWith l "@@" = true) (h2 : parse_hunk_start l = none) :
    processLine st l = st := by
  simp [processLine, h1, h2]

lemma processLine_plus (st : ParseState) (l : String) (h : pyStartsWith l "+" = true) :
    processLine st l =
      { context_lines := st.context_lines ++
          [⟨st.new_line_number + 1, pyDropOne l, LineType.added⟩],
        valid_comment_lines := insert (st.new_line_number + 1) st.valid_comment_lines,
        new_line_number := st.new_line_number + 1 } := by
  simp [processLine, plusNotHdr l h, h]

lemma processLine_space (st : ParseState) (l : String) (h : pyStartsWith l " " = true) :
    processLine st l =
      { st with
        context_lines := st.context_lines ++
          [⟨st.new_line_number + 1, pyDropOne l, LineType.context⟩],
        new_line_number := st.new_line_number + 1 } := by
  simp [processLine, spaceNotHdr l h, spaceNotPlus l h, h]

lemma processLine_other (st : ParseState) (l : String)
    (h1 : pyStartsWith l "@@" = false) (h2 : pyStartsWith l "+" = false)
    (h3 : pyStartsWith l " " = false) :
    processLine st l = st := by
  simp [processLine, h1, h2, h3]

/-- C5: a line that starts with `@@` but does not match the hunk-header
pattern leaves the parser state (in particular the destination counter)
unchanged, and subsequent lines continue numbering from the prior value. -/
theorem claimC5_malformed_header_keeps_counter (st : ParseState) (l : String)
    (rest : List String)
    (h1 : pyStartsWith l "@@" = true) (h2 : parse_hunk_start l = none) :
    processLine st l = st ∧
    List.foldl processLine st (l :: rest) = List.foldl processLine st rest := by
  have he := processLine_hdr_unmatched st l h1 h2
  exact ⟨he, by rw [List.foldl_cons, he]⟩

theorem claimC5_witness :
    processLine ⟨[], ∅, 0⟩ "@@ malformed header" = (⟨[], ∅, 0⟩ : ParseState) ∧
    List.foldl processLine (⟨[], ∅, 0⟩ : ParseState) ["@@ malformed header", "+x"] =
      List.foldl processLine (⟨[], ∅, 0⟩ : ParseState) ["+x"] :=
  claimC5_malformed_header_keeps_counter ⟨[], ∅, 0⟩ "@@ malformed header" ["+x"]
    (by rfl) (by rfl)

/-- C10: every line whose first character is `+` is treated as an added
line — the destination counter is incremented, only the leading marker
character is stripped, an `added` DiffLine is emitted, and its line number
is inserted into the valid set.  This applies to any `+`-prefixed line,
including file-header lines such as `+++ b/path`. -/
theorem claimC10_any_plus_line_is_added (st : ParseState) (l : String)
    (h : pyStartsWith l "+" = true) :
    processLine st l =
      { context_lines := st.context_lines ++
          [⟨st.new_line_number + 1, pyDropOne l, LineType.added⟩],
        valid_comment_lines := insert (st.new_line_number + 1) st.valid_comment_lines,
        new_line_number := st.new_line_number + 1 } :=
  processLine_plus st l h

theorem claimC10_witness :
    processLine (⟨[], ∅, 0⟩ : ParseState) "+++ b/path" =
      { context_lines := [⟨1, "++ b/path", LineType.added⟩],
        valid_comment_lines := insert 1 ∅,
        new_line_number := 1 } :=
  claimC10_any_plus_line_is_added ⟨[], ∅, 0⟩ "+++ b/path" (by rfl)

/-! Fold invariants of the diff parser. -/

lemma valid_mono (st : ParseState) (l : String) :
    st.valid_comment_lines ⊆ (processLine st l).valid_comment_lines := by
  by_cases h1 : pyStartsWith l "@@" = true
  · cases h2 : parse_hunk_start l with
    | some c => rw [processLine_hdr_matched st l c h1 h2]
    | none => rw [processLine_hdr_unmatched st l h1 h2]
  · by_cases h2 : pyStartsWith l "+" = true
    · rw [processLine_plus st l h2]; exact Finset.subset_insert _ _
    · by_cases h3 : pyStartsWith l " " = true
      · rw [processLine_space st l h3]
      · rw [processLine_other st l (by simpa using h1) (by simpa using h2) (by simpa using h3)]

lemma valid_mono_fold (lines : List String) (st : ParseState) :
    st.valid_comment_lines ⊆ (lines.foldl processLine st).valid_comment_lines := by
  induction lines generalizing st with
  | nil => exact Finset.Subset.refl _
  | cons l rest ih =>
    rw [List.foldl_cons]
    exact Finset.Subset.trans (valid_mono st l) (ih (processLine st l))

/-- Added records always have their line number in the valid set. -/
def AddedInValid (st : ParseState) : Prop :=
  ∀ d ∈ st.context_lines, d.type = LineType.added →
    d.line_number ∈ st.valid_comment_lines

lemma addedInValid_step (st : ParseState) (l : String) (h : AddedInValid st) :
    AddedInValid (processLine st l) := by
  by_cases h1 : pyStartsWith l "@@" = true
  · cases h2 : parse_hunk_start l with
    | some c =>
      rw [processLine_hdr_matched st l c h1 h2]
      exact fun d hd ht => h d hd ht
    | none => rw [processLine_hdr_unmatched st l h1 h2]; exact h
  · by_cases h2 : pyStartsWith l "+" = true
    · rw [processLine_plus st l h2]
      intro d hd ht
      rcases List.mem_append.mp hd with hd1 | hd2
      · exact Finset.mem_insert_of_mem (h d hd1 ht)
      · rw [List.mem_singleton.mp hd2]
        exact Finset.mem_insert_self _ _
    · by_cases h3 : pyStartsWith l " " = true
      · rw [processLine_space st l h3]
        intro d hd ht
        rcases List.mem_append.mp hd with hd1 | hd2
        · exact h d hd1 ht
        · rw [List.mem_singleton.mp hd2] at ht; simp at ht
      · rw [processLine_other st l (by simpa using h1) (by simpa using h2) (by simpa using h3)]
        exact h

lemma addedInValid_fold (lines : List String) (st : ParseState) (h : AddedInValid st) :
    AddedInValid (lines.foldl processLine st) := by
  induction lines generalizing st with
  | nil => exact h
  | cons l rest ih =>
    rw [List.foldl_cons]
    exact ih (processLine st l) (addedInValid_step st l h)

/-- C2: the returned context is the 300-record truncation of the emitted
sequence, hence at most 300 records, while the valid-line set covers every
added record of the entire (untruncated) parse. -/
theorem claimC2_context_capped_valid_uncapped (p : String) :
    (parse_diff_for_review p).1 = (parseState p).context_lines.take 300 ∧
    (parse_diff_for_review p).1.length ≤ 300 ∧
    ∀ d ∈ (parseState p).context_lines, d.type = LineType.added →
      d.line_number ∈ (parse_diff_for_review p).2 := by
  refine ⟨rfl, ?_, ?_⟩
  · show ((parseState p).context_lines.take 300).length ≤ 300
    rw [List.length_take]
    exact min_le_left _ _
  · exact addedInValid_fold (pySplitLines p) ⟨[], ∅, 0⟩
      (fun d hd => absurd hd (List.not_mem_nil d))

theorem claimC2_witness :
    (⟨1, "x", LineType.added⟩ : DiffLine).line_number ∈
      (parse_diff_for_review "@@ -1,1 +1,1 @@\n+x").2 :=
  (claimC2_context_capped_valid_uncapped "@@ -1,1 +1,1 @@\n+x").2.2
    ⟨1, "x", LineType.added⟩
    (by rw [show (parseState "@@ -1,1 +1,1 @@\n+x").context_lines =
        [⟨1, "x", LineType.added⟩] from rfl]
        exact List.mem_singleton_self _)
    rfl

/-! The valid-line set as the set of added line numbers, and its size. -/

/-- Destination numbers of the added records of an emitted sequence. -/
def addedNums (l : List DiffLine) : List Int :=
  (l.filter (fun d => d.type == LineType.added)).map DiffLine.line_number

/-- Number of `+`-prefixed lines of a patch. -/
def countPlus (p : String) : Nat :=
  (pySplitLines p).countP (fun l => pyStartsWith l "+")

lemma addedNums_append (l1 l2 : List DiffLine) :
    addedNums (l1 ++ l2) = addedNums l1 ++ addedNums l2 := by
  simp [addedNums]

lemma addedNums_single_added (n : Int) (s : String) :
    addedNums [⟨n, s, LineType.added⟩] = [n] := rfl

lemma addedNums_single_context (n : Int) (s : String) :
    addedNums [⟨n, s, LineType.context⟩] = [] := rfl

lemma hdrHead (l : String) (h : pyStartsWith l "@@" = true) :
    ∃ t, l.toList = '@' :: t := by
  unfold pyStartsWith at h
  cases hl : l.toList with
  | nil => rw [hl] at h; exact absurd h (by decide)
  | cons b t =>
    rw [hl] at h
    have h2 : (('@' == b) && List.isPrefixOf ['@'] t) = true := h
    have hc : '@' = b := by simpa using (Bool.and_eq_true _ _ |>.mp h2).1
    exact ⟨t, by rw [hc]⟩

lemma hdrNotPlus (l : String) (h : pyStartsWith l "@@" = true) :
    pyStartsWith l "+" = false := by
  obtain ⟨t, hl⟩ := hdrHead l h
  exact startsNotWith l '@' t hl '+' [] (by decide)

lemma valid_is_addedNums_step (st : ParseState) (l : String)
    (h : st.valid_comment_lines = (addedNums st.context_lines).toFinset) :
    (processLine st l).valid_comment_lines =
      (addedNums (processLine st l).context_lines).toFinset := by
  by_cases h1 : pyStartsWith l "@@" = true
  · cases h2 : parse_hunk_start l with
    | some c => rw [processLine_hdr_matched st l c h1 h2]; exact h
    | none => rw [processLine_hdr_unmatched st l h1 h2]; exact h
  · by_cases h2 : pyStartsWith l "+" = true
    · rw [processLine_plus st l h2]
      show insert _ st.valid_comment_lines = _
      rw [addedNums_append, addedNums_single_added, List.toFinset_append, h]
      ext a
      simp [or_comm]
    · by_cases h3 : pyStartsWith l " " = true
      · rw [processLine_space st l h3]
        show st.valid_comment_lines = _
        rw [addedNums_append, addedNums_single_context, List.append_nil]
        exact h
      · rw [processLine_other st l (by simpa using h1) (by simpa using h2) (by simpa using h3)]
        exact h

lemma valid_is_addedNums_fold (lines : List String) (st : ParseState)
    (h : st.valid_comment_lines = (addedNums st.context_lines).toFinset) :
    (lines.foldl processLine st).valid_comment_lines =
      (addedNums (lines.foldl processLine st).context_lines).toFinset := by
  induction lines generalizing st with
  | nil => exact h
  | cons l rest ih =>
    rw [List.foldl_cons]
    exact ih (processLine st l) (valid_is_addedNums_step st l h)

lemma addedNums_len_step (st : ParseState) (l : String) :
    (addedNums (processLine st l).context_lines).length =
      (addedNums st.context_lines).length +
        (if pyStartsWith l "+" = true then 1 else 0) := by
  by_cases h1 : pyStartsWith l "@@" = true
  · rw [hdrNotPlus l h1]
    cases h2 : parse_hunk_start l with
    | some c => rw [processLine_hdr_matched st l c h1 h2]; simp
    | none => rw [processLine_hdr_unmatched st l h1 h2]; simp
  · by_cases h2 : pyStartsWith l "+" = true
    · rw [processLine_plus st l h2, h2]
      show (addedNums (st.context_lines ++ [⟨st.new_line_number + 1, pyDropOne l,
        LineType.added⟩])).length = _
      rw [addedNums_append, addedNums_single_added, List.length_append]
      simp
    · by_cases h3 : pyStartsWith l " " = true
      · rw [processLine_space st l h3, (by simpa using h2 : pyStartsWith l "+" = false)]
        show (addedNums (st.context_lines ++ [⟨st.new_line_number + 1, pyDropOne l,
          LineType.context⟩])).length = _
        rw [addedNums_append, addedNums_single_context, List.append_nil]
        simp
      · rw [processLine_other st l (by simpa using h1) (by simpa using h2) (by simpa using h3),
          (by simpa using h2 : pyStartsWith l "+" = false)]
        simp

lemma addedNums_len_fold (lines : List String) (st : ParseState) :
    (addedNums (lines.foldl processLine st).context_lines).length =
      (addedNums st.context_lines).length +
        lines.countP (fun l => pyStartsWith l "+") := by
  induction lines generalizing st with
  | nil => simp
  | cons l rest ih =>
    rw [List.foldl_cons, ih (processLine st l), addedNums_len_step st l,
      List.countP_cons]
    omega

/-- C3 fails as stated: a patch whose two hunk headers declare the same
start assigns the same destination number to both of its two `+` lines, so
the valid-line set has one member, not two. -/
theorem claimC3_counterexample :
    countPlus "@@ -1,1 +1,1 @@\n+a\n@@ -1,1 +1,1 @@\n+b" = 2 ∧
    (parse_diff_for_review "@@ -1,1 +1,1 @@\n+a\n@@ -1,1 +1,1 @@\n+b").2.card = 1 := by
  constructor <;> rfl

/-- C3, amended: the valid-line set is exactly the set of destination
numbers assigned to the `+`-prefixed lines; whenever these numbers are
pairwise distinct (as in a well-formed patch whose hunks do not overlap) the
set has exactly `k` members for `k` `+`-prefixed lines. -/
theorem claimC3_valid_card_amended (p : String)
    (h : (addedNums (parseState p).context_lines).Nodup) :
    (parse_diff_for_review p).2 = (addedNums (parseState p).context_lines).toFinset ∧
    (parse_diff_for_review p).2.card = countPlus p := by
  have h1 : (parse_diff_for_review p).2 =
      (addedNums (parseState p).context_lines).toFinset :=
    valid_is_addedNums_fold (pySplitLines p) ⟨[], ∅, 0⟩ rfl
  refine ⟨h1, ?_⟩
  rw [h1, List.toFinset_card_of_nodup h]
  have h2 := addedNums_len_fold (pySplitLines p) ⟨[], ∅, 0⟩
  rw [show (addedNums (⟨[], ∅, 0⟩ : ParseState).context_lines).length = 0 from rfl,
    Nat.zero_add] at h2
  exact h2

theorem claimC3_witness :
    (parse_diff_for_review "@@ -1,2 +1,2 @@\n+a\n+b").2 =
      (addedNums (parseState "@@ -1,2 +1,2 @@\n+a\n+b").context_lines).toFinset ∧
    (parse_diff_for_review "@@ -1,2 +1,2 @@\n+a\n+b").2.card =
      countPlus "@@ -1,2 +1,2 @@\n+a\n+b" :=
  claimC3_valid_card_amended "@@ -1,2 +1,2 @@\n+a\n+b" (by decide)

/-! Monotonicity of the emitted line numbers. -/

/-- Companion fold tracking whether every matched hunk header declared a
start that keeps the destination counter from moving backwards. -/
def hdrStep (acc : Bool × Int) (line : String) : Bool × Int :=
  if pyStartsWith line "@@" then
    match parse_hunk_start line with
    | some c => (acc.1 && decide (acc.2 ≤ c - 1), c - 1)
    | none => acc
  else if pyStartsWith line "+" then (acc.1, acc.2 + 1)
  else if pyStartsWith line " " then (acc.1, acc.2 + 1)
  else acc

/-- A patch whose matched hunk headers never move the destination counter
backwards (true of well-formed patches, whose hunks come in order). -/
def headersNonDecreasing (p : String) : Bool :=
  ((pySplitLines p).foldl hdrStep (true, 0)).1

lemma hdrStep_pres_false (acc : Bool × Int) (l : String) (h : acc.1 = false) :
    (hdrStep acc l).1 = false := by
  obtain ⟨b, n⟩ := acc
  simp only at h
  subst h
  by_cases h1 : pyStartsWith l "@@" = true
  · cases h2 : parse_hunk_start l with
    | some c => simp [hdrStep, h1, h2]
    | none => simp [hdrStep, h1, h2]
  · by_cases h3 : pyStartsWith l "+" = true
    · simp [hdrStep, h1, h3]
    · by_cases h4 : pyStartsWith l " " = true <;> simp [hdrStep, h1, h3, h4]

lemma foldl_hdr_false (lines : List String) (acc : Bool × Int) (h : acc.1 = false) :
    (lines.foldl hdrStep acc).1 = false := by
  induction lines generalizing acc with
  | nil => exact h
  | cons l rest ih =>
    rw [List.foldl_cons]
    exact ih (hdrStep acc l) (hdrStep_pres_false acc l h)

lemma hdrStep_fst_true (acc : Bool × Int) (l : String)
    (h : (hdrStep acc l).1 = true) : acc.1 = true := by
  by_contra hc
  have hf : acc.1 = false := by simpa using hc
  rw [hdrStep_pres_false acc l hf] at h
  exact absurd h (by simp)

lemma hdrStep_snd (st : ParseState) (b : Bool) (l : String) :
    (hdrStep (b, st.new_line_number) l).2 = (processLine st l).new_line_number := by
  by_cases h1 : pyStartsWith l "@@" = true
  · cases h2 : parse_hunk_start l with
    | some c => rw [processLine_hdr_matched st l c h1 h2]; simp [hdrStep, h1, h2]
    | none => rw [processLine_hdr_unmatched st l h1 h2]; simp [hdrStep, h1, h2]
  · by_cases h2 : pyStartsWith l "+" = true
    · rw [processLine_plus st l h2]; simp [hdrStep, h1, h2]
    · by_cases h3 : pyStartsWith l " " = true
      · rw [processLine_space st l h3]; simp [hdrStep, h1, h2, h3]
      · rw [processLine_other st l (by simpa using h1) (by simpa using h2) (by simpa using h3)]
        simp [hdrStep, h1, h2, h3]

/-- Invariant: emitted numbers are sorted and bounded by the counter. -/
def NumsOk (st : ParseState) : Prop :=
  List.Chain' (· ≤ ·) (st.context_lines.map DiffLine.line_number) ∧
  ∀ d ∈ st.context_lines, d.line_number ≤ st.new_line_number

lemma chain_snoc (l : List DiffLine) (bound : Int) (d : DiffLine)
    (hc : List.Chain' (· ≤ ·) (l.map DiffLine.line_number))
    (hb : ∀ e ∈ l, e.line_number ≤ bound) (hd : bound ≤ d.line_number) :
    List.Chain' (· ≤ ·) ((l ++ [d]).map DiffLine.line_number) := by
  rw [List.map_append]
  rw [List.chain'_append]
  refine ⟨hc, List.chain'_singleton _, ?_⟩
  intro x hx y hy
  have hy2 : d.line_number = y := by simpa using hy
  obtain ⟨hne, hxe⟩ := List.mem_getLast?_eq_getLast hx
  have hxm : x ∈ l.map DiffLine.line_number := by rw [hxe]; exact List.getLast_mem hne
  obtain ⟨e, he, hex⟩ := List.mem_map.mp hxm
  rw [← hy2, ← hex]
  exact le_trans (hb e he) hd

lemma numsOk_step (st : ParseState) (l : String) (b : Bool) (hok : NumsOk st)
    (hb : (hdrStep (b, st.new_line_number) l).1 = true) :
    b = true ∧ NumsOk (processLine st l) := by
  refine ⟨by simpa using hdrStep_fst_true _ l hb, ?_⟩
  by_cases h1 : pyStartsWith l "@@" = true
  · cases h2 : parse_hunk_start l with
    | some c =>
      have hb2 : ((b && decide (st.new_line_number ≤ c - 1)), c - 1).1 = true := by
        rw [← show hdrStep (b, st.new_line_number) l =
          ((b && decide (st.new_line_number ≤ c - 1)), c - 1) from by
            simp [hdrStep, h1, h2]]
        exact hb
      have hle : st.new_line_number ≤ c - 1 := by
        have := (Bool.and_eq_true _ _ |>.mp hb2).2
        exact of_decide_eq_true this
      rw [processLine_hdr_matched st l c h1 h2]
      exact ⟨hok.1, fun d hd => le_trans (hok.2 d hd) hle⟩
    | none =>
      rw [processLine_hdr_unmatched st l h1 h2]
      exact hok
  · by_cases h2 : pyStartsWith l "+" = true
    · rw [processLine_plus st l h2]
      constructor
      · exact chain_snoc st.context_lines st.new_line_number _ hok.1 hok.2 (by simp)
      · intro d hd
        rcases List.mem_append.mp hd with hd1 | hd2
        · refine le_trans (hok.2 d hd1) ?_
          show st.new_line_number ≤ st.new_line_number + 1
          omega
        · rw [List.mem_singleton.mp hd2]
    · by_cases h3 : pyStartsWith l " " = true
      · rw [processLine_space st l h3]
        constructor
        · exact chain_snoc st.context_lines st.new_line_number _ hok.1 hok.2 (by simp)
        · intro d hd
          rcases List.mem_append.mp hd with hd1 | hd2
          · refine le_trans (hok.2 d hd1) ?_
            show st.new_line_number ≤ st.new_line_number + 1
            omega
          · rw [List.mem_singleton.mp hd2]
      · rw [processLine_other st l (by simpa using h1) (by simpa using h2) (by simpa using h3)]
        exact hok

lemma numsOk_fold (lines : List String) (st : ParseState) (b : Bool) (hok : NumsOk st)
    (hb : (lines.foldl hdrStep (b, st.new_line_number)).1 = true) :
    NumsOk (lines.foldl processLine st) := by
  induction lines generalizing st b with
  | nil => exact hok
  | cons l rest ih =>
    have hb2 : (hdrStep (b, st.new_line_number) l).1 = true := by
      by_contra hc
      have hf : (hdrStep (b, st.new_line_number) l).1 = false := by simpa using hc
      have := foldl_hdr_false rest (hdrStep (b, st.new_line_number) l) hf
      rw [List.foldl_cons] at hb
      rw [this] at hb
      exact absurd hb (by simp)
    obtain ⟨_, hok2⟩ := numsOk_step st l b hok hb2
    have hb3 : (rest.foldl hdrStep ((hdrStep (b, st.new_line_number) l).1,
        (processLine st l).new_line_number)).1 = true := by
      rw [← hdrStep_snd st b l]
      exact hb
    rw [List.foldl_cons]
    exact ih (processLine st l) (hdrStep (b, st.new_line_number) l).1 hok2 hb3

lemma chain_take (l : List Int) (n : Nat) (h : List.Chain' (· ≤ ·) l) :
    List.Chain' (· ≤ ·) (l.take n) := by
  have h2 : List.Chain' (· ≤ ·) (l.take n ++ l.drop n) := by
    rw [List.take_append_drop]; exact h
  exact (List.chain'_append.mp h2).1

/-- C4, amended: the counter is reset at each matched hunk header to the
declared start minus one and incremented once per emitted Added/Context
line; the emitted line numbers are monotonically non-decreasing provided no
matched hunk header moves the counter backwards (true in particular of
well-formed patches whose hunks appear in increasing order). -/
theorem claimC4_monotone_amended (p : String) (h : headersNonDecreasing p = true) :
    List.Chain' (· ≤ ·) ((parse_diff_for_review p).1.map DiffLine.line_number) ∧
    (∀ st l c, pyStartsWith l "@@" = true → parse_hunk_start l = some c →
      (processLine st l).new_line_number = c - 1) ∧
    (∀ st l, pyStartsWith l "+" = true ∨ pyStartsWith l " " = true →
      (processLine st l).new_line_number = st.new_line_number + 1 ∧
      (processLine st l).context_lines.length = st.context_lines.length + 1) := by
  refine ⟨?_, ?_, ?_⟩
  · have hok : NumsOk (parseState p) := by
      refine numsOk_fold (pySplitLines p) ⟨[], ∅, 0⟩ true ?_ ?_
      · exact ⟨List.chain'_nil, fun d hd => absurd hd (List.not_mem_nil d)⟩
      · exact h
    show List.Chain' (· ≤ ·) (((parseState p).context_lines.take 300).map DiffLine.line_number)
    rw [List.map_take]
    exact chain_take _ 300 hok.1
  · intro st l c h1 h2
    rw [processLine_hdr_matched st l c h1 h2]
  · intro st l hor
    rcases hor with h2 | h3
    · rw [processLine_plus st l h2]
      exact ⟨rfl, by simp⟩
    · rw [processLine_space st l h3]
      exact ⟨rfl, by simp⟩

/-- C4 fails as stated: a second hunk header declaring an earlier start
makes the emitted line numbers decrease. -/
theorem claimC4_counterexample :
    ¬ List.Chain' (· ≤ ·)
      ((parse_diff_for_review "@@ -10,1 +10,1 @@\n+a\n@@ -1,1 +1,1 @@\n+b").1.map
        DiffLine.line_number) := by
  rw [show ((parse_diff_for_review "@@ -10,1 +10,1 @@\n+a\n@@ -1,1 +1,1 @@\n+b").1.map
    DiffLine.line_number) = [10, 1] from rfl]
  intro hc
  have h10 : (10 : Int) ≤ 1 := (List.chain'_cons.mp hc).1
  omega

theorem claimC4_witness :
    List.Chain' (· ≤ ·)
      ((parse_diff_for_review "@@ -1,2 +1,2 @@\n+a\n b").1.map DiffLine.line_number) ∧
    (processLine (⟨[], ∅, 0⟩ : ParseState) "@@ -3,1 +7,1 @@").new_line_number = 6 ∧
    (processLine (⟨[], ∅, 0⟩ : ParseState) "+z").new_line_number = 1 :=
  ⟨(claimC4_monotone_amended "@@ -1,2 +1,2 @@\n+a\n b" (by rfl)).1,
   (claimC4_monotone_amended "@@ -1,2 +1,2 @@\n+a\n b" (by rfl)).2.1
     ⟨[], ∅, 0⟩ "@@ -3,1 +7,1 @@" 7 (by rfl) (by rfl),
   ((claimC4_monotone_amended "@@ -1,2 +1,2 @@\n+a\n b" (by rfl)).2.2
     ⟨[], ∅, 0⟩ "+z" (Or.inl (by rfl))).1⟩

/-! Error handling of the Suggestion Validator. -/

/-- C9: if the model output fails to parse, or parses to something that is
not a list, the validator yields no pending comments (the failure is
reported rather than fatal, and the file simply gets no inline comments). -/
theorem claimC9_parse_failure_yields_empty (raw : String) (valid : Finset Int) (mc : Nat) :
    (jsonLoads (stripFences (pyStrip raw)) = none → review_validate raw valid mc = []) ∧
    (∀ v, jsonLoads (stripFences (pyStrip raw)) = some v →
      (∀ xs, v ≠ JValue.arr xs) → review_validate raw valid mc = []) := by
  constructor
  · intro h
    simp [review_validate, h]
  · intro v h hv
    cases v with
    | arr xs => exact absurd rfl (hv xs)
    | null => simp [review_validate, h]
    | bool b => simp [review_validate, h]
    | num m e => simp [review_validate, h]
    | str s => simp [review_validate, h]
    | obj fs => simp [review_validate, h]

theorem claimC9_witness :
    review_validate "not json" {1} 5 = [] ∧ review_validate "\x7b\x7d" {1} 5 = [] :=
  ⟨(claimC9_parse_failure_yields_empty "not json" {1} 5).1 (by rfl),
   (claimC9_parse_failure_yields_empty "\x7b\x7d" {1} 5).2 (JValue.obj []) (by rfl)
     (fun _ h => JValue.noConfusion h)⟩

/-! The validator's guarantee on accepted comments. -/

/-- An element whose `line` value is a member of the valid set. -/
def LineOkP (valid : Finset Int) (s : JValue) : Prop :=
  ∃ ln, pyIndex s "line" = Except.ok ln ∧ ∃ n ∈ valid, pyIntEq ln n = true

lemma pyInSet_true (v : JValue) (valid : Finset Int)
    (h : pyInSet v valid = Except.ok true) : ∃ n ∈ valid, pyIntEq v n = true := by
  cases v with
  | arr xs => exact absurd h (by simp [pyInSet])
  | obj fs => exact absurd h (by simp [pyInSet])
  | null =>
    have h2 : decide (∃ n ∈ valid, pyIntEq JValue.null n = true) = true := by
      have h3 : Except.ok (ε := Unit) (decide (∃ n ∈ valid, pyIntEq JValue.null n = true)) =
        Except.ok true := h
      exact Except.ok.inj h3
    exact of_decide_eq_true h2
  | bool b =>
    have h2 : decide (∃ n ∈ valid, pyIntEq (JValue.bool b) n = true) = true :=
      Except.ok.inj h
    exact of_decide_eq_true h2
  | num m e =>
    have h2 : decide (∃ n ∈ valid, pyIntEq (JValue.num m e) n = true) = true :=
      Except.ok.inj h
    exact of_decide_eq_true h2
  | str t =>
    have h2 : decide (∃ n ∈ valid, pyIntEq (JValue.str t) n = true) = true :=
      Except.ok.inj h
    exact of_decide_eq_true h2

lemma filterSuggestions_cons_keys_skip (valid : Finset Int) (mc : Nat)
    (acc : List JValue) (s : JValue) (rest : List JValue)
    (h : keysCheck s = Except.ok false) :
    filterSuggestions valid mc acc (s :: rest) = filterSuggestions valid mc acc rest := by
  simp only [filterSuggestions]
  rw [h]

lemma filterSuggestions_cons_line_skip (valid : Finset Int) (mc : Nat)
    (acc : List JValue) (s : JValue) (rest : List JValue) (ln : JValue)
    (h1 : keysCheck s = Except.ok true) (h2 : pyIndex s "line" = Except.ok ln)
    (h3 : pyInSet ln valid = Except.ok false) :
    filterSuggestions valid mc acc (s :: rest) = filterSuggestions valid mc acc rest := by
  simp only [filterSuggestions, h1, h2, h3]

lemma filterSuggestions_cons_accept (valid : Finset Int) (mc : Nat)
    (acc : List JValue) (s : JValue) (rest : List JValue) (ln : JValue)
    (h1 : keysCheck s = Except.ok true) (h2 : pyIndex s "line" = Except.ok ln)
    (h3 : pyInSet ln valid = Except.ok true) :
    filterSuggestions valid mc acc (s :: rest) =
      (if mc ≤ (acc ++ [s]).length then Except.ok (acc ++ [s])
       else filterSuggestions valid mc (acc ++ [s]) rest) := by
  simp only [filterSuggestions, h1, h2, h3]

lemma filter_lineOk (valid : Finset Int) (mc : Nat) :
    ∀ (ss acc out : List JValue), (∀ s ∈ acc, LineOkP valid s) →
      filterSuggestions valid mc acc ss = Except.ok out →
      ∀ s ∈ out, LineOkP valid s := by
  intro ss
  induction ss with
  | nil =>
    intro acc out hacc hf
    have h2 : acc = out := by
      have h3 : Except.ok (ε := Unit) acc = Except.ok out := hf
      exact Except.ok.inj h3
    rw [← h2]
    exact hacc
  | cons s rest ih =>
    intro acc out hacc hf
    simp only [filterSuggestions] at hf
    cases hk : keysCheck s with
    | error e => simp only [hk] at hf; exact Except.noConfusion hf
    | ok kb =>
      simp only [hk] at hf
      cases kb with
      | false => exact ih acc out hacc hf
      | true =>
        cases hl : pyIndex s "line" with
        | error e => simp only [hl] at hf; exact Except.noConfusion hf
        | ok ln =>
          simp only [hl] at hf
          cases hs : pyInSet ln valid with
          | error e => simp only [hs] at hf; exact Except.noConfusion hf
          | ok sb =>
            simp only [hs] at hf
            cases sb with
            | false => exact ih acc out hacc hf
            | true =>
              have hok : LineOkP valid s := ⟨ln, hl, pyInSet_true ln valid hs⟩
              have hacc2 : ∀ s2 ∈ acc ++ [s], LineOkP valid s2 := by
                intro s2 hs2
                rcases List.mem_append.mp hs2 with hm | hm
                · exact hacc s2 hm
                · rw [List.mem_singleton.mp hm]; exact hok
              by_cases hmc : mc ≤ (acc ++ [s]).length
              · rw [if_pos hmc] at hf
                have h2 : acc ++ [s] = out := Except.ok.inj hf
                rw [← h2]
                exact hacc2
              · rw [if_neg hmc] at hf
                exact ih (acc ++ [s]) out hacc2 hf

lemma postLoop_mem (valid : Finset Int) :
    ∀ ls : List JValue, (∀ s ∈ ls, LineOkP valid s) →
      ∀ pc ∈ postLoop ls,
        (∃ n ∈ valid, pyIntEq pc.line n = true) ∧ ∃ c, pc.body = normalizeComment c := by
  intro ls
  induction ls with
  | nil => intro _ pc hpc; exact absurd hpc (by simp [postLoop])
  | cons s rest ih =>
    intro hls pc hpc
    obtain ⟨ln, hl, hmem⟩ := hls s (List.mem_cons_self s rest)
    simp only [postLoop] at hpc
    simp only [hl] at hpc
    cases hc : pyIndex s "comment" with
    | error e => simp only [hc] at hpc; exact absurd hpc (by simp)
    | ok v =>
      simp only [hc] at hpc
      cases v with
      | str c =>
        rcases List.mem_cons.mp hpc with hpc1 | hpc2
        · rw [hpc1]
          exact ⟨hmem, c, rfl⟩
        · exact ih (fun s2 hs2 => hls s2 (List.mem_cons_of_mem s hs2)) pc hpc2
      | null => exact absurd hpc (by simp)
      | bool b => exact absurd hpc (by simp)
      | num m e => exact absurd hpc (by simp)
      | arr xs => exact absurd hpc (by simp)
      | obj fs => exact absurd hpc (by simp)

lemma normalizeComment_ne_empty (c : String) (h : pyStrip c ≠ "") :
    normalizeComment c ≠ "" := by
  unfold normalizeComment
  by_cases hp : ((pyStrip c != "") && !endsPunct (pyStrip c)) = true
  · rw [if_pos hp]
    intro he
    have h2 : (pyStrip c).toList ++ ['.'] = [] := congrArg String.toList he
    exact absurd h2 (by simp)
  · rw [if_neg hp]
    exact h

/-- C1, amended: every pending comment produced by the validator has a
`line` that is a member of the valid set and a text that is the script's
trim-and-punctuate normalization of the model's comment string; the text is
non-empty whenever that comment contains any non-whitespace character (a
whitespace-only comment yields an accepted comment with empty text). -/
theorem claimC1_guarantee_amended (raw : String) (valid : Finset Int) (mc : Nat)
    (pc : PendingComment) (hpc : pc ∈ review_validate raw valid mc) :
    (∃ n ∈ valid, pyIntEq pc.line n = true) ∧
    ∃ c, pc.body = normalizeComment c ∧ (pyStrip c ≠ "" → pc.body ≠ "") := by
  unfold review_validate at hpc
  cases hj : jsonLoads (stripFences (pyStrip raw)) with
  | none => rw [hj] at hpc; exact absurd hpc (by simp)
  | some v =>
    rw [hj] at hpc
    cases v with
    | arr ss =>
      have hpc2 : pc ∈ (match filterSuggestions valid mc [] ss with
        | Except.ok l => postLoop l
        | Except.error _ => []) := hpc
      cases hf : filterSuggestions valid mc [] ss with
      | error e => rw [hf] at hpc2; exact absurd hpc2 (by simp)
      | ok out =>
        rw [hf] at hpc2
        have hpc3 : pc ∈ postLoop out := hpc2
        have hall := filter_lineOk valid mc ss [] out
          (fun s hs => absurd hs (List.not_mem_nil s)) hf
        obtain ⟨hmem, c, hbody⟩ := postLoop_mem valid out hall pc hpc3
        exact ⟨hmem, c, hbody, fun hne => by rw [hbody]; exact normalizeComment_ne_empty c hne⟩
    | null => exact absurd hpc (by simp)
    | bool b => exact absurd hpc (by simp)
    | num m e => exact absurd hpc (by simp)
    | str t => exact absurd hpc (by simp)
    | obj fs => exact absurd hpc (by simp)

/-- C1 fails as stated: a suggestion whose comment is whitespace-only is
accepted and produces a pending comment whose normalized text is empty. -/
theorem claimC1_counterexample :
    (review_validate "[\x7b\"line\": 1, \"comment\": \" \"\x7d]" {1} 5).map
      PendingComment.body = [""] := by rfl

theorem claimC1_witness :
    (∃ n ∈ ({1} : Finset Int), pyIntEq (JValue.num 1 0) n = true) ∧
    ∃ c, "ok." = normalizeComment c ∧ (pyStrip c ≠ "" → ("ok." : String) ≠ "") := by
  have h := claimC1_guarantee_amended "[\x7b\"line\": 1, \"comment\": \"ok\"\x7d]" {1} 5
    ⟨JValue.num 1 0, "ok."⟩
    (by rw [show review_validate "[\x7b\"line\": 1, \"comment\": \"ok\"\x7d]" {1} 5 =
        [⟨JValue.num 1 0, "ok."⟩] from rfl]
        exact List.mem_singleton_self _)
  exact h

/-! The max-count policy. -/

lemma dictGet_hasKey (fs : List (String × JValue)) (k : String) (v : JValue)
    (h : dictGet fs k = some v) : hasKeyB fs k = true := by
  induction fs with
  | nil => exact absurd h (by simp [dictGet])
  | cons p rest ih =>
    simp only [dictGet] at h
    cases hr : dictGet rest k with
    | some w =>
      have h2 := ih (by rw [hr] at h; exact hr.trans (by rw [← h]))
      simp [hasKeyB, List.any_cons] at h2 ⊢
      exact Or.inr h2
    | none =>
      rw [hr] at h
      by_cases hk : (p.1 == k) = true
      · simp [hasKeyB, List.any_cons, hk]
      · rw [if_neg hk] at h; exact absurd h (by simp)

lemma keysCheck_obj (fs : List (String × JValue)) :
    keysCheck (JValue.obj fs) =
      Except.ok (hasKeyB fs "line" && hasKeyB fs "comment") := by
  simp only [keysCheck, pyContainsKey]
  cases h : hasKeyB fs "line" with
  | false => simp [h]
  | true => simp [h]

lemma pyIndex_obj_some (fs : List (String × JValue)) (k : String) (v : JValue)
    (h : dictGet fs k = some v) : pyIndex (JValue.obj fs) k = Except.ok v := by
  simp only [pyIndex, h]

lemma pyInSet_num_true (m e : Int) (valid : Finset Int)
    (h : ∃ n ∈ valid, pyIntEq (JValue.num m e) n = true) :
    pyInSet (JValue.num m e) valid = Except.ok true := by
  simp only [pyInSet]
  rw [decide_eq_true h]

/-- A well-formed suggestion element in the sense of the spec's
ReviewSuggestion data model: an object carrying a numeric `line` that is a
member of the valid set and a string `comment`. -/
def GoodElem (valid : Finset Int) (s : JValue) : Prop :=
  ∃ fs m e c, s = JValue.obj fs ∧ dictGet fs "line" = some (JValue.num m e) ∧
    dictGet fs "comment" = some (JValue.str c) ∧
    ∃ n ∈ valid, pyIntEq (JValue.num m e) n = true

lemma filter_good_take (valid : Finset Int) :
    ∀ (ss acc : List JValue), (∀ s ∈ ss, GoodElem valid s) → acc.length < 5 →
      filterSuggestions valid 5 acc ss = Except.ok (acc ++ ss.take (5 - acc.length)) := by
  intro ss
  induction ss with
  | nil =>
    intro acc hg hlen
    simp [filterSuggestions]
  | cons s rest ih =>
    intro acc hg hlen
    obtain ⟨fs, m, e, c, hs, hl, hc, hmem⟩ := hg s (List.mem_cons_self s rest)
    have hk1 : keysCheck s = Except.ok true := by
      rw [hs, keysCheck_obj, dictGet_hasKey fs "line" _ hl, dictGet_hasKey fs "comment" _ hc]
      rfl
    have hk2 : pyIndex s "line" = Except.ok (JValue.num m e) := by
      rw [hs]; exact pyIndex_obj_some fs "line" _ hl
    have hk3 := pyInSet_num_true m e valid hmem
    rw [filterSuggestions_cons_accept valid 5 acc s rest (JValue.num m e) hk1 hk2 hk3]
    by_cases hq : 5 ≤ (acc ++ [s]).length
    · rw [if_pos hq]
      have hlen4 : acc.length = 4 := by
        rw [List.length_append, List.length_singleton] at hq; omega
      rw [show 5 - acc.length = 0 + 1 from by omega, List.take_succ_cons, List.take_zero]
    · rw [if_neg hq]
      have hlen2 : (acc ++ [s]).length < 5 := by
        rw [List.length_append, List.length_singleton]
        rw [List.length_append, List.length_singleton] at hq
        omega
      rw [ih (acc ++ [s]) (fun s2 hs2 => hg s2 (List.mem_cons_of_mem s hs2)) hlen2]
      congr 1
      rw [List.append_assoc]
      congr 1
      rw [List.length_append, List.length_singleton]
      have h5 : 5 - acc.length = (5 - (acc.length + 1)) + 1 := by omega
      rw [h5, List.take_succ_cons]
      rfl

lemma postLoop_good (valid : Finset Int) :
    ∀ ls : List JValue, (∀ s ∈ ls, GoodElem valid s) →
      postLoop ls = ls.filterMap mkPendingOf ∧ (postLoop ls).length = ls.length := by
  intro ls
  induction ls with
  | nil => intro _; exact ⟨rfl, rfl⟩
  | cons s rest ih =>
    intro hg
    obtain ⟨fs, m, e, c, hs, hl, hc, _⟩ := hg s (List.mem_cons_self s rest)
    obtain ⟨ih1, ih2⟩ := ih (fun s2 hs2 => hg s2 (List.mem_cons_of_mem s hs2))
    have hm : mkPendingOf s = some ⟨JValue.num m e, normalizeComment c⟩ := by
      rw [hs]; simp only [mkPendingOf, hl, hc]
    have hpost : postLoop (s :: rest) =
        ⟨JValue.num m e, normalizeComment c⟩ :: postLoop rest := by
      rw [hs]
      simp only [postLoop, pyIndex_obj_some fs "line" _ hl,
        pyIndex_obj_some fs "comment" _ hc]
    constructor
    · rw [hpost, List.filterMap_cons, hm, ih1]
    · rw [hpost]
      simp [ih2]

/-- C6: given ten well-formed suggestion elements whose lines are all valid
and the script's `maxCount` of five, exactly five pending comments are
produced, in the order the elements appeared; acceptance stops at five and
the remaining elements are dropped. -/
theorem claimC6_maxcount_five (valid : Finset Int) (ss : List JValue)
    (h10 : ss.length = 10) (hg : ∀ s ∈ ss, GoodElem valid s) :
    validateParsed valid 5 ss = (ss.take 5).filterMap mkPendingOf ∧
    (validateParsed valid 5 ss).length = 5 := by
  have hf := filter_good_take valid ss [] hg (by simp)
  have hf2 : filterSuggestions valid 5 [] ss = Except.ok (ss.take 5) := hf
  have hgood5 : ∀ s ∈ ss.take 5, GoodElem valid s :=
    fun s hs => hg s (List.take_subset 5 ss hs)
  obtain ⟨hp1, hp2⟩ := postLoop_good valid (ss.take 5) hgood5
  have hv : validateParsed valid 5 ss = postLoop (ss.take 5) := by
    unfold validateParsed
    rw [hf2]
  refine ⟨by rw [hv, hp1], ?_⟩
  rw [hv, hp2, List.length_take, h10]
  exact min_eq_left (by omega)

/-- A canonical well-formed suggestion element. -/
def goodObj : JValue :=
  JValue.obj [("line", JValue.num 1 0), ("comment", JValue.str "ok")]

theorem claimC6_witness :
    validateParsed {1} 5 (List.replicate 10 goodObj) =
      ((List.replicate 10 goodObj).take 5).filterMap mkPendingOf ∧
    (validateParsed {1} 5 (List.replicate 10 goodObj)).length = 5 :=
  claimC6_maxcount_five {1} (List.replicate 10 goodObj) (by rfl)
    (fun s hs => by
      rw [List.eq_of_mem_replicate hs]
      exact ⟨[("line", JValue.num 1 0), ("comment", JValue.str "ok")], 1, 0, "ok",
        rfl, rfl, rfl, ⟨1, by decide, by rfl⟩⟩)

/-! Per-element validation rules. -/

/-- Normalization exactly as the spec words it: trim whitespace, then append
a period whenever the trimmed text lacks terminal punctuation — with no
exception for the empty string.  Kept separate from `normalizeComment` (the
code's behavior) to compare the two. -/
def specNormalize (c : String) : String :=
  let t := pyStrip c
  if endsPunct t then t else t ++ "."

/-- C7 fails as stated: for a whitespace-only comment the trimmed text is
empty and lacks terminal punctuation, so the spec's normalization would
yield `"."`, but the code's truthiness guard skips the period and the
accepted pending comment carries the empty string. -/
theorem claimC7_counterexample :
    (review_validate "[\x7b\"line\": 1, \"comment\": \"  \"\x7d]" {1} 5).map
        PendingComment.body ≠ [specNormalize "  "] ∧
    (review_validate "[\x7b\"line\": 1, \"comment\": \"  \"\x7d]" {1} 5).map
        PendingComment.body = [""] := by
  constructor
  · rw [show (review_validate "[\x7b\"line\": 1, \"comment\": \"  \"\x7d]" {1} 5).map
        PendingComment.body = [""] from rfl,
      show specNormalize "  " = "." from rfl]
    decide
  · rfl

/-- C7, amended: for each parsed element, in order, the validator discards
it when it does not carry both required keys, discards it when its `line`
value is not a member of the valid set, and otherwise accepts it; the
accepted element's pending comment carries the trimmed comment text with a
period appended when the trimmed text is non-empty and lacks terminal
punctuation (a whitespace-only comment stays empty). -/
theorem claimC7_element_rules (valid : Finset Int) (mc : Nat) (acc : List JValue)
    (fs : List (String × JValue)) (rest : List JValue) :
    (¬ (hasKeyB fs "line" = true ∧ hasKeyB fs "comment" = true) →
      filterSuggestions valid mc acc (JValue.obj fs :: rest) =
        filterSuggestions valid mc acc rest) ∧
    (∀ ln, dictGet fs "line" = some ln → hasKeyB fs "comment" = true →
      pyInSet ln valid = Except.ok false →
      filterSuggestions valid mc acc (JValue.obj fs :: rest) =
        filterSuggestions valid mc acc rest) ∧
    (∀ ln c, dictGet fs "line" = some ln → dictGet fs "comment" = some (JValue.str c) →
      pyInSet ln valid = Except.ok true →
      filterSuggestions valid mc acc (JValue.obj fs :: rest) =
        (if mc ≤ (acc ++ [JValue.obj fs]).length then Except.ok (acc ++ [JValue.obj fs])
         else filterSuggestions valid mc (acc ++ [JValue.obj fs]) rest) ∧
      mkPendingOf (JValue.obj fs) = some ⟨ln, normalizeComment c⟩ ∧
      normalizeComment c =
        (if (pyStrip c != "") && !endsPunct (pyStrip c) then pyStrip c ++ "." else pyStrip c)) := by
  refine ⟨?_, ?_, ?_⟩
  · intro hmiss
    have hfalse : (hasKeyB fs "line" && hasKeyB fs "comment") = false := by
      cases h1 : hasKeyB fs "line" <;> cases h2 : hasKeyB fs "comment" <;> simp_all
    exact filterSuggestions_cons_keys_skip valid mc acc _ rest
      (by rw [keysCheck_obj, hfalse])
  · intro ln hl hc hbad
    have hk1 : keysCheck (JValue.obj fs) = Except.ok true := by
      rw [keysCheck_obj, dictGet_hasKey fs "line" _ hl, hc]
      rfl
    exact filterSuggestions_cons_line_skip valid mc acc _ rest ln hk1
      (pyIndex_obj_some fs "line" _ hl) hbad
  · intro ln c hl hc hgoodline
    have hk1 : keysCheck (JValue.obj fs) = Except.ok true := by
      rw [keysCheck_obj, dictGet_hasKey fs "line" _ hl, dictGet_hasKey fs "comment" _ hc]
      rfl
    refine ⟨filterSuggestions_cons_accept valid mc acc _ rest ln hk1
      (pyIndex_obj_some fs "line" _ hl) hgoodline, ?_, rfl⟩
    simp only [mkPendingOf, hl, hc]

theorem claimC7_witness :
    filterSuggestions {1} 5 [] [JValue.obj [("comment", JValue.str "x")]] =
      filterSuggestions {1} 5 [] [] ∧
    filterSuggestions {1} 5 []
        [JValue.obj [("line", JValue.num 99 0), ("comment", JValue.str "x")]] =
      filterSuggestions {1} 5 [] [] ∧
    mkPendingOf (JValue.obj [("line", JValue.num 1 0), ("comment", JValue.str "ok")]) =
      some ⟨JValue.num 1 0, normalizeComment "ok"⟩ :=
  ⟨(claimC7_element_rules {1} 5 [] [("comment", JValue.str "x")] []).1
      (by intro h; exact absurd h.1 (by decide)),
   (claimC7_element_rules {1} 5 []
        [("line", JValue.num 99 0), ("comment", JValue.str "x")] []).2.1
      (JValue.num 99 0) (by rfl) (by rfl) (by rfl),
   ((claimC7_element_rules {1} 5 []
        [("line", JValue.num 1 0), ("comment", JValue.str "ok")] []).2.2
      (JValue.num 1 0) "ok" (by rfl) (by rfl) (by rfl)).2.1⟩

/-! Transparency of the code-fence wrapper. -/

lemma parseP_backtick (t : List Char) (fuel : Nat) :
    parseP (Nat.succ fuel) PMode.val ('`' :: t) = none := rfl

lemma jsonLoads_not_fence (s : String) (v : JValue) (h : jsonLoads s = some v) :
    pyStartsWith s "```" = false := by
  cases hl : s.toList with
  | nil =>
    unfold pyStartsWith
    rw [hl]
    decide
  | cons b t =>
    by_cases hb : b = '`'
    · exfalso
      subst hb
      have hnone : jsonLoads s = none := by
        unfold jsonLoads
        rw [hl]
        rfl
      rw [hnone] at h
      exact Option.noConfusion h
    · unfold pyStartsWith
      rw [hl]
      show List.isPrefixOf ('`' :: ['`', '`']) (b :: t) = false
      have hne : ('`' == b) = false := by
        rw [beq_eq_false_iff_ne]
        exact fun hh => hb hh.symm
      rw [List.isPrefixOf_cons₂, hne, Bool.false_and]

lemma pyStripL_no_ws_ends (c d : Char) (m : List Char)
    (hc : pyWsChar c = false) (hd : pyWsChar d = false) :
    pyStripL (c :: (m ++ [d])) = c :: (m ++ [d]) := by
  unfold pyStripL
  have h1 : List.dropWhile pyWsChar (c :: (m ++ [d])) = c :: (m ++ [d]) := by
    rw [List.dropWhile_cons_of_neg (by simp [hc])]
  rw [h1]
  have h2 : (c :: (m ++ [d])).reverse = d :: (m.reverse ++ [c]) := by
    simp
  rw [h2]
  rw [List.dropWhile_cons_of_neg (by simp [hd])]
  rw [← h2, List.reverse_reverse]

lemma wrap_toList (s : String) :
    ("```json\n" ++ s ++ "\n```").toList =
      '`' :: ((['`', '`', 'j', 's', 'o', 'n', '\n'] ++ s.toList ++ ['\n', '`', '`']) ++ ['`']) := by
  show ("```json\n".toList ++ s.toList) ++ "\n```".toList = _
  simp [List.append_assoc]

lemma pyStrip_wrap (s : String) :
    pyStrip ("```json\n" ++ s ++ "\n```") = "```json\n" ++ s ++ "\n```" := by
  show String.mk (pyStripL (("```json\n" ++ s ++ "\n```").toList)) = _
  rw [wrap_toList, pyStripL_no_ws_ends '`' '`' _ (by decide) (by decide), ← wrap_toList]
  rfl

lemma stripTrailNl_append (l : List Char) :
    stripTrailNl (l ++ ['\n', '`', '`', '`']) = l := by
  unfold stripTrailNl
  have hsf : List.isSuffixOf ['\n', '`', '`', '`'] (l ++ ['\n', '`', '`', '`']) = true := by
    simp only [List.isSuffixOf, List.reverse_append]
    show List.isPrefixOf ['`', '`', '`', '\n']
      ((['\n', '`', '`', '`'] : List Char).reverse ++ l.reverse) = true
    rw [show (['\n', '`', '`', '`'] : List Char).reverse = ['`', '`', '`', '\n'] from by rfl]
    simp [List.isPrefixOf_cons₂, List.isPrefixOf_nil_left]
  rw [if_pos hsf, List.length_append]
  show (l ++ ['\n', '`', '`', '`']).take (l.length + 4 - 4) = l
  rw [show l.length + 4 - 4 = l.length from by omega]
  exact List.take_left l _

lemma stripFences_wrap (s : String) :
    stripFences ("```json\n" ++ s ++ "\n```") = s := by
  have hlead : stripLeadingFence ("```json\n" ++ s ++ "\n```") =
      ⟨s.toList ++ ['\n', '`', '`', '`']⟩ := rfl
  have hpre : pyStartsWith ("```json\n" ++ s ++ "\n```") "```" = true := by
    have h1 : ("```json\n" ++ s ++ "\n```").toList =
        '`' :: '`' :: '`' :: ('j' :: 's' :: 'o' :: 'n' :: '\n' ::
          (s.toList ++ ['\n', '`', '`', '`'])) := rfl
    unfold pyStartsWith
    rw [h1]
    show List.isPrefixOf ('`' :: '`' :: '`' :: []) _ = true
    rw [List.isPrefixOf_cons₂, List.isPrefixOf_cons₂, List.isPrefixOf_cons₂]
    simp [List.isPrefixOf_nil_left]
  unfold stripFences
  rw [if_pos hpre, hlead]
  show String.mk (stripTrailNl (s.toList ++ ['\n', '`', '`', '`'])) = s
  rw [stripTrailNl_append]
  rfl

/-- C8: wrapping a JSON array text in a surrounding code fence (a leading
```` ```json ```` marker line and a trailing ```` ``` ```` marker line)
yields exactly the pending comments of the unwrapped text. -/
theorem claimC8_fence_transparent (s : String) (xs : List JValue) (valid : Finset Int)
    (mc : Nat) (h1 : jsonLoads s = some (JValue.arr xs)) (h2 : pyStrip s = s) :
    review_validate ("```json\n" ++ s ++ "\n```") valid mc =
      review_validate s valid mc := by
  have hA : pyStartsWith s "```" = false := jsonLoads_not_fence s _ h1
  have hD : stripFences (pyStrip s) = s := by
    rw [h2]
    unfold stripFences
    rw [if_neg (by simp [hA])]
  unfold review_validate
  rw [pyStrip_wrap, stripFences_wrap, hD]

theorem claimC8_witness :
    review_validate ("```json\n" ++ "[\x7b\"line\": 1, \"comment\": \"ok\"\x7d]" ++ "\n```")
        {1} 5 =
      review_validate "[\x7b\"line\": 1, \"comment\": \"ok\"\x7d]" {1} 5 :=
  claimC8_fence_transparent "[\x7b\"line\": 1, \"comment\": \"ok\"\x7d]"
    [JValue.obj [("line", JValue.num 1 0), ("comment", JValue.str "ok")]] {1} 5
    (by rfl) (by rfl)

